import Mathlib

/-!
Verification development for the polyphonic piano-transcription pipeline
(`ps_preprocessing.py`, `ps_model.py`, `ps_inference.py`).

The Python/numpy code is shallowly embedded:
* spectrograms and activation matrices are lists of rows (`List (List ℝ)`),
  ground-truth matrices are entry maps `Nat → Nat → ℕ` built by successive
  numpy-style assignments;
* note times are rationals and `np.round` is rounding half to even (`roundQ`);
* numpy slice reads/writes clip to the array bounds, while single-index
  writes raise `IndexError` when out of bounds — fallible operations return
  `Option`, with `none` standing for a raised Python exception;
* the embedding of single-index access treats indices as in-bounds only when
  `0 ≤ i < n`; numpy additionally wraps indices in `[-n, 0)`, which cannot
  arise for the MIDI-valid inputs (non-negative onsets/durations, piano
  pitches 21–108) the theorems quantify over.
-/

namespace PS

/-- Python slice `xs[a:b]` for `0 ≤ a ≤ b`: drops `a` elements then takes
`b - a`; out-of-range bounds clip, as in Python/numpy. -/
def pySlice (xs : List α) (a b : Nat) : List α :=
  (xs.drop a).take (b - a)

/-- `np.zeros`-style constant matrix with `n` rows of width `w` (row value `z`). -/
def constRows (n w : Nat) (z : α) : List (List α) :=
  List.replicate n (List.replicate w z)

/-- Recursion core of `chunks`: the `fuel` argument only makes the recursion
structural; `xs.length` steps always suffice since every step drops at least
one element when `0 < len`. -/
def chunksAux (fuel : Nat) (xs : List α) (len : Nat) : List (List α) :=
  match fuel, xs with
  | 0, _ => []
  | _ + 1, [] => []
  | fuel + 1, x :: t => (x :: t).take len :: chunksAux fuel ((x :: t).drop len) len

/-- `chunks(sequence, length)` from `ps_preprocessing.py` (lines 341-343):
consecutive slices `sequence[0:length]`, `sequence[length:2*length]`, …;
the final chunk may be shorter and is not padded. (With `length = 0` the
Python `range` raises `ValueError`; the claims only concern positive chunk
lengths.) -/
def chunks (xs : List α) (len : Nat) : List (List α) :=
  if len = 0 then [] else chunksAux xs.length xs len

/-- Modelled from the spec: `ps_utility.chunks` is not part of the provided
sources; §4.2 specifies it as a lazy sequence of fixed-size slices whose final
chunk may be shorter and is not padded, identical in behaviour to
`ps_preprocessing.chunks`. -/
def util_chunks (xs : List α) (len : Nat) : List (List α) :=
  chunks xs len

/-- One MIDI note as unpacked by the ground-truth generators
(`for onset, _pitch, duration, velocity, _channel in notes`); velocity and
channel are never read by the embedded functions. -/
structure Note where
  onset : ℚ
  pitch : ℤ
  duration : ℚ

/-- `np.round` to an integer: round half to even (banker's rounding). -/
def roundQ (q : ℚ) : ℤ :=
  if q - ⌊q⌋ < 1/2 then ⌊q⌋
  else if 1/2 < q - ⌊q⌋ then ⌊q⌋ + 1
  else if ⌊q⌋ % 2 = 0 then ⌊q⌋ else ⌊q⌋ + 1

/-- Note label: `np.mod(pitch - 21, 12) if is_chroma else pitch - 21`. -/
def noteLabel (is_chroma : Bool) (pitch : ℤ) : ℤ :=
  if is_chroma then (pitch - 21) % 12 else pitch - 21

/-- Numpy slice-column assignment `m[lo:hi, lab] = 1` on a matrix with
`nRows` rows: rows clip to the array bounds, so only entries with
`lo ≤ r < hi` and `r < nRows` in column `lab` are set. -/
def sliceSetCol (m : Nat → Nat → ℕ) (lo hi lab : ℤ) (nRows : Nat) :
    Nat → Nat → ℕ :=
  fun r c =>
    if lo ≤ (r : ℤ) ∧ (r : ℤ) < hi ∧ r < nRows ∧ (c : ℤ) = lab then 1 else m r c

/-- Numpy single-entry assignment `m[r, c] = 1` on an `nRows × nCols` matrix:
raises `IndexError` (here `none`) when the index is out of bounds. -/
def singleSet (m : Nat → Nat → ℕ) (r c : ℤ) (nRows nCols : Nat) :
    Option (Nat → Nat → ℕ) :=
  if 0 ≤ r ∧ r < nRows ∧ 0 ≤ c ∧ c < nCols then
    some fun r' c' => if (r' : ℤ) = r ∧ (c' : ℤ) = c then 1 else m r' c'
  else none

/-- Loop body of `midi_to_groundtruth` for one note: slice assignment
`ground_truth[frame_start:frame_end, label] = 1`, and when
`frame_start + 2 <= frame_end` also
`onset_gt[frame_start:frame_start+2, label] = 1`. -/
def midi_gt_step (dt : ℚ) (n_frames : Nat) (is_chroma : Bool)
    (gt : (Nat → Nat → ℕ) × (Nat → Nat → ℕ)) (note : Note) :
    (Nat → Nat → ℕ) × (Nat → Nat → ℕ) :=
  let frame_start := roundQ (note.onset / dt)
  let frame_end := roundQ ((note.onset + note.duration) / dt)
  let lab := noteLabel is_chroma note.pitch
  (sliceSetCol gt.1 frame_start frame_end lab n_frames,
   if frame_start + 2 ≤ frame_end then
     sliceSetCol gt.2 frame_start (frame_start + 2) lab n_frames
   else gt.2)

/-- `midi_to_groundtruth` (`ps_preprocessing.py` lines 137-151) with the
wav/midi file reading abstracted into the note list; returns the pair
`(ground_truth, onset_gt)` of entry maps, both starting from zeros. -/
def midi_to_groundtruth (notes : List Note) (dt : ℚ) (n_frames : Nat)
    (is_chroma : Bool) : (Nat → Nat → ℕ) × (Nat → Nat → ℕ) :=
  notes.foldl (midi_gt_step dt n_frames is_chroma) (fun _ _ => 0, fun _ _ => 0)

/-- The triple ground truth returned by `midi_to_triple_groundtruth`:
frame, onset and offset matrices plus the `onset_plus` list. -/
structure TripleGT where
  frame_gt : Nat → Nat → ℕ
  onset_gt : Nat → Nat → ℕ
  offset_gt : Nat → Nat → ℕ
  onset_plus : List (Nat → Nat → ℕ)

/-- Loop body of `midi_to_triple_groundtruth` for one note: the frame slice
assignment clips, while `onset_gt[frame_start, label]`, the guarded
`onset_plus[i][frame_start+i+1, label]` writes and
`offset_gt[frame_end, label]` are unchecked single-index writes that raise
(`none`) when the row is out of bounds. -/
def midi_triple_step (dt : ℚ) (n_frames n_onset_plus : Nat) (gt : TripleGT)
    (note : Note) : Option TripleGT := do
  let frame_start := roundQ (note.onset / dt)
  let frame_end := roundQ ((note.onset + note.duration) / dt)
  let lab := note.pitch - 21
  let frame := sliceSetCol gt.frame_gt frame_start frame_end lab n_frames
  let onset ← singleSet gt.onset_gt frame_start lab n_frames 88
  let plus ← (List.range n_onset_plus).mapM fun (i : ℕ) =>
    if frame_start + (i : ℤ) + 1 < frame_end then
      singleSet (gt.onset_plus.getD i fun _ _ => 0)
        (frame_start + (i : ℤ) + 1) lab n_frames 88
    else
      some (gt.onset_plus.getD i fun _ _ => 0)
  let offset ← singleSet gt.offset_gt frame_end lab n_frames 88
  return ⟨frame, onset, offset, plus⟩

/-- `midi_to_triple_groundtruth` (`ps_preprocessing.py` lines 112-135) with
the midi file reading abstracted into the note list. -/
def midi_to_triple_groundtruth (notes : List Note) (dt : ℚ) (n_frames : Nat)
    (n_onset_plus : Nat) : Option TripleGT :=
  notes.foldlM (midi_triple_step dt n_frames n_onset_plus)
    ⟨fun _ _ => 0, fun _ _ => 0, fun _ _ => 0,
     List.replicate n_onset_plus fun _ _ => 0⟩

/-- One record of the overlapping single-head layout: a feature window paired
with the centre-frame label row. -/
structure WindowExample where
  spec : List (List ℝ)
  label : List ℕ

/-- Indexing the `(frame_gt, onset_gt)` tuple returned by
`midi_to_groundtruth` as `ground_truth[frame, :]`: a Python tuple does not
support tuple indices, so this raises `TypeError` (modelled as `none`). -/
def tupleIndexRow (_gt : (Nat → Nat → ℕ) × (Nat → Nat → ℕ)) (_frame : Nat) :
    Option (List ℕ) :=
  none

/-- `write_file_to_tfrecords` (`ps_preprocessing.py` lines 314-338) with the
wav/midi reading abstracted into the spectrogram and note-list arguments and
the record writer accumulating the examples in a list. The result of
`midi_to_groundtruth` is bound WITHOUT unpacking the returned pair, and the
loop body indexes that tuple as `ground_truth[frame, :]`. -/
def write_file_to_tfrecords (spectrogram : List (List ℝ)) (notes : List Note)
    (dt : ℚ) (context_frames : Nat) : Option (List WindowExample × Nat) :=
  let ground_truth := midi_to_groundtruth notes dt spectrogram.length false
  (List.range' context_frames (spectrogram.length - 2 * context_frames)).foldlM
    (fun acc frame => do
      let row ← tupleIndexRow ground_truth frame
      let window := pySlice spectrogram (frame - context_frames)
        (frame + context_frames + 1)
      return (acc.1 ++ [WindowExample.mk window row], acc.2 + 1))
    ([], 0)

/-- Zero-padding of the final chunk, as done on `split_spec[-1]` (and the two
ground-truth splits) in `write_file_to_non_overlap_tfrecords` and in
`spectrogram_to_non_overlap_note_activation`: `split[-1]` raises `IndexError`
on an empty list; otherwise the last chunk is extended with
`len - last.length` zero rows of its own width. -/
def padLastChunk (split : List (List (List α))) (len : Nat) (z : α) :
    Option (List (List (List α))) :=
  match split.getLast? with
  | none => none
  | some last =>
      some (split.dropLast ++
        [last ++ List.replicate (len - last.length) (List.replicate (last.headD []).length z)])

/-- One record of the non-overlapping multi-head layout. -/
structure NOExample where
  spec : List (List ℝ)
  label : List (List ℕ)
  onset : List (List ℕ)

/-- `write_file_to_non_overlap_tfrecords` (`ps_preprocessing.py` lines
346-380) with wav/midi reading abstracted into the spectrogram and the two
ground-truth matrices (which `midi_to_groundtruth` produces with
`spectrogram.shape[0]` rows each): all three are chunked, the final chunk of
each is zero-padded to full length, and one record is written per zipped
triple; returns the records together with the count written. -/
def write_file_to_non_overlap_tfrecords (spectrogram : List (List ℝ))
    (ground_truth onset_gt : List (List ℕ)) (context_frames : Nat) :
    Option (List NOExample × Nat) := do
  let split_spec ← padLastChunk (chunks spectrogram context_frames) context_frames (0 : ℝ)
  let split_gt ← padLastChunk (chunks ground_truth context_frames) context_frames (0 : ℕ)
  let split_onset ← padLastChunk (chunks onset_gt context_frames) context_frames (0 : ℕ)
  let records := (split_spec.zip (split_gt.zip split_onset)).map
    fun t => NOExample.mk t.1 t.2.1 t.2.2
  return (records, records.length)

/-- `weights_from_labels` (`ps_model.py` lines 156-161), staged exactly as the
four numpy operations: start from zeros, set every row that contains a `1.0`
label to all-ones, overwrite the labelled positions with `2.0`, then replace
every remaining zero with `0.25`. -/
def weights_from_labels (labels : List (List ℚ)) : List (List ℚ) :=
  let weights0 := labels.map fun row => row.map fun _ => (0 : ℚ)
  let weights1 := List.zipWith
    (fun lrow wrow =>
      if ∃ x ∈ lrow, x = 1 then wrow.map fun _ => (1 : ℚ) else wrow)
    labels weights0
  let weights2 := List.zipWith
    (fun lrow wrow => List.zipWith (fun x w => if x = 1 then (2 : ℚ) else w) lrow wrow)
    labels weights1
  weights2.map fun wrow => wrow.map fun w => if w = 0 then 1/4 else w

/-- `log_loss` (`ps_model.py` lines 714-741) without the unused `weights`
argument: the elementwise losses
`-labels * log(predictions + eps) - (1 - labels) * log(1 - predictions + eps)`;
`tf.log` is the natural logarithm. -/
noncomputable def log_loss (labels predictions : List ℝ) (epsilon : ℝ) : List ℝ :=
  List.zipWith
    (fun y p => -(y * Real.log (p + epsilon)) - (1 - y) * Real.log (1 - p + epsilon))
    labels predictions

/-- `tf.reduce_mean` of a vector of losses. -/
noncomputable def reduceMean (xs : List ℝ) : ℝ :=
  xs.sum / xs.length

/-- The three estimator modes. -/
inductive Mode
  | train
  | eval
  | predict
deriving DecidableEq

/-- The parts of the returned `EstimatorSpec` the claims are about: the
prediction bundle and the registered total loss (`none` in predict mode). -/
structure EstimatorSpec where
  classes : List ℝ
  probabilities : List ℝ
  onset_probabilities : List ℝ
  loss : Option ℝ

open Classical in
/-- `conv_net_init` (`ps_model.py` lines 164-356) with the two `resnet_rnn`
sub-network sigmoid outputs, the plain `resnet` logits and the
`slim.fully_connected` fusion layer `fc_frame` abstracted into arguments.
`probs_subdiv_1` and `probs_subdiv_2` are assigned only in the `use_rnn`
branch (`none` otherwise); the fusion code at lines 222-226 dereferences them
unconditionally, as do the loss registrations at lines 279-281 for
`individual_loss_subdiv_1`, `individual_loss_subdiv_2` and `frame_losses`
(assigned only under `use_rnn` at lines 270-273) — dereferencing an
unassigned name raises (`none`). Note the third loss at line 273 is
`log_loss(combined_probs, label_frames, epsilon=clip_norm)`, with
`combined_probs` in the labels slot. `plain_logits` (the `logits` of the
non-recurrent branch, line 218) is never read afterwards, as in the source.
The optimizer/metrics graph nodes do not affect the returned predictions or
loss and are not modelled. -/
noncomputable def conv_net_init (use_rnn : Bool) (mode : Mode)
    (label_frames label_onset : List ℝ)
    (rnn_frame_probs rnn_onset_probs : List ℝ)
    (_plain_logits : List ℝ)
    (fc_frame : List ℝ → List ℝ)
    (clip_norm : ℝ) : Option EstimatorSpec := do
  let probs_subdiv_1 ← (if use_rnn then some rnn_frame_probs else none : Option (List ℝ))
  let probs_subdiv_2 ← (if use_rnn then some rnn_onset_probs else none : Option (List ℝ))
  let combined_probs := fc_frame (probs_subdiv_1 ++ probs_subdiv_2)
  let classes := combined_probs.map fun p => if (1:ℝ)/2 ≤ p then (1:ℝ) else 0
  if mode = Mode.predict then
    return ⟨classes, combined_probs, probs_subdiv_2, none⟩
  else
    let total ← (if use_rnn then
        some (reduceMean (log_loss label_frames probs_subdiv_1 clip_norm) +
          reduceMean (log_loss label_onset probs_subdiv_2 clip_norm) +
          reduceMean (log_loss combined_probs label_frames clip_norm))
      else none : Option ℝ)
    return ⟨classes, combined_probs, probs_subdiv_2, some total⟩

/-- `spectrogram_to_note_activation` (`ps_inference.py` lines 447-453): the
sliding-window loop assigns `get_activation(...)` — a PAIR of arrays — into
the single row `note_activation[frame, :]`, which raises a broadcast
`ValueError` whenever the loop body runs, i.e. whenever the centre-frame
range `[context_frames, F - context_frames)` is non-empty. When the loop is
empty the all-zero buffer is shifted left by 8 rows and zero-padded on the
right by 8 rows. -/
def spectrogram_to_note_activation (spec : List (List ℝ)) (context_frames : Nat)
    (_pred : List (List ℝ) → List (List ℝ) × List (List ℝ)) :
    Option (List (List ℝ)) :=
  if spec.length - context_frames ≤ context_frames then
    some ((constRows spec.length 88 (0 : ℝ)).drop 8 ++ constRows 8 88 0)
  else none

/-- `spectrogram_to_non_overlap_note_activation` (`ps_inference.py` lines
456-473): chunk the spectrogram with `util.chunks`, zero-pad the last chunk
(`split_spec[-1]`, an `IndexError` on an empty spectrogram), run the
predictor once per chunk appending both outputs to buffers seeded with one
zero row of width 88, and return the slices `note_activation[3:F+3]` and
`onset_activation[1:F+1]`. -/
def spectrogram_to_non_overlap_note_activation (spec : List (List ℝ))
    (context_frames : Nat)
    (pred : List (List ℝ) → List (List ℝ) × List (List ℝ)) :
    Option (List (List ℝ) × List (List ℝ)) := do
  let split ← padLastChunk (util_chunks spec context_frames) context_frames (0 : ℝ)
  let note_activation := constRows 1 88 (0 : ℝ) ++ split.flatMap fun c => (pred c).1
  let onset_activation := constRows 1 88 (0 : ℝ) ++ split.flatMap fun c => (pred c).2
  return (pySlice note_activation 3 (spec.length + 3),
    pySlice onset_activation 1 (spec.length + 1))

/-- `get_note_activation` (`ps_inference.py` lines 53-78) with feature
extraction abstracted into the spectrogram argument: it computes the triple
ground truth, then either the chunked activations (recurrent path, chunk
length 2000) or — in the non-recurrent path — only `note_activation`, after
which the `return` statement dereferences the never-assigned
`onset_activation`, raising a `NameError` (`none`). -/
def get_note_activation (use_rnn : Bool) (notes : List Note) (dt : ℚ)
    (n_onset_plus : Nat) (spec : List (List ℝ)) (context_frames : Nat)
    (pred : List (List ℝ) → List (List ℝ) × List (List ℝ)) :
    Option ((List (List ℝ)) × (List (List ℝ)) × TripleGT) := do
  let gts ← midi_to_triple_groundtruth notes dt spec.length n_onset_plus
  if use_rnn then
    let acts ← spectrogram_to_non_overlap_note_activation spec 2000 pred
    return (acts.1, acts.2, gts)
  else
    let _note_activation ← spectrogram_to_note_activation spec context_frames pred
    none

/-! ## Claim-side definitions

Definitions below formalise what the spec claims, for comparison with the
embedded source functions above. -/

/-- Claimed frame ground truth (spec §4.3, claim C5): entry `(r, c)` of
`frame_gt` is 1 exactly when some note covers frame `r`
(`frame_start ≤ r < frame_end`, clipped to `n_frames` rows) in column
`label`. -/
def frame_gt_spec (notes : List Note) (dt : ℚ) (n_frames : Nat)
    (is_chroma : Bool) (r c : Nat) : ℕ :=
  if ∃ note ∈ notes,
      roundQ (note.onset / dt) ≤ (r : ℤ)
      ∧ (r : ℤ) < roundQ ((note.onset + note.duration) / dt)
      ∧ r < n_frames ∧ (c : ℤ) = noteLabel is_chroma note.pitch
  then 1 else 0

/-- Claimed onset ground truth (spec §4.3, claim C5): entry `(r, c)` of
`onset_gt` is 1 exactly when some note with `frame_start + 2 ≤ frame_end`
has `frame_start ≤ r < frame_start + 2` and column `label`. -/
def onset_gt_spec (notes : List Note) (dt : ℚ) (n_frames : Nat)
    (is_chroma : Bool) (r c : Nat) : ℕ :=
  if ∃ note ∈ notes,
      roundQ (note.onset / dt) + 2 ≤ roundQ ((note.onset + note.duration) / dt)
      ∧ roundQ (note.onset / dt) ≤ (r : ℤ)
      ∧ (r : ℤ) < roundQ (note.onset / dt) + 2
      ∧ r < n_frames ∧ (c : ℤ) = noteLabel is_chroma note.pitch
  then 1 else 0

/-- Claimed total loss of the recurrent non-predict path (claim C2): sum of
the means of three elementwise log-loss terms with `ε = clip_norm` whose
`(labels, predictions)` pairs are (frame labels, frames sub-network probs),
(onset labels, onset sub-network probs) and (frame labels, fused combined
probs). -/
noncomputable def claimed_total_loss
    (label_frames label_onset p1 p2 combined : List ℝ) (clip_norm : ℝ) : ℝ :=
  reduceMean (log_loss label_frames p1 clip_norm)
    + reduceMean (log_loss label_onset p2 clip_norm)
    + reduceMean (log_loss label_frames combined clip_norm)

/-- Claimed behaviour of `weights_from_labels` (spec §4.5): weight `2.0` at
every position where the label is `1`, default weight `0.25` everywhere
else. -/
def claimed_weights (labels : List (List ℚ)) : List (List ℚ) :=
  labels.map fun row => row.map fun x => if x = 1 then 2 else 1/4

/-! ## Helper lemmas about rounding -/

theorem floor_le_roundQ (q : ℚ) : ⌊q⌋ ≤ roundQ q := by
  unfold roundQ
  split_ifs <;> omega

theorem roundQ_le_floor_add_one (q : ℚ) : roundQ q ≤ ⌊q⌋ + 1 := by
  unfold roundQ
  split_ifs <;> omega

theorem roundQ_nonneg {q : ℚ} (h : 0 ≤ q) : 0 ≤ roundQ q :=
  le_trans (Int.floor_nonneg.mpr h) (floor_le_roundQ q)

theorem roundQ_mono {q₁ q₂ : ℚ} (h : q₁ ≤ q₂) : roundQ q₁ ≤ roundQ q₂ := by
  rcases lt_or_le ⌊q₁⌋ ⌊q₂⌋ with hf | hf
  · calc roundQ q₁ ≤ ⌊q₁⌋ + 1 := roundQ_le_floor_add_one q₁
      _ ≤ ⌊q₂⌋ := by omega
      _ ≤ roundQ q₂ := floor_le_roundQ q₂
  · have hf2 : ⌊q₁⌋ = ⌊q₂⌋ := le_antisymm (Int.floor_le_floor h) hf
    unfold roundQ
    rw [hf2]
    split_ifs <;> first | omega | (exfalso; linarith)

theorem roundQ_intCast (z : ℤ) : roundQ (z : ℚ) = z := by
  unfold roundQ
  rw [Int.floor_intCast]
  norm_num

/-! ## Helper lemmas about slicing, chunking and padding -/

theorem pySlice_length (xs : List α) (a b : Nat) :
    (pySlice xs a b).length = min (b - a) (xs.length - a) := by
  simp [pySlice, List.length_take, List.length_drop]

theorem chunksAux_fuel_eq {len : Nat} (hlen : 0 < len) :
    ∀ (f g : Nat) (xs : List α), xs.length ≤ f → xs.length ≤ g →
      chunksAux f xs len = chunksAux g xs len := by
  intro f
  induction f with
  | zero =>
      intro g xs hf _hg
      have hx : xs = [] := List.length_eq_zero.mp (Nat.le_zero.mp hf)
      subst hx
      cases g <;> rfl
  | succ f ih =>
      intro g xs hf hg
      cases xs with
      | nil => cases g <;> rfl
      | cons x t =>
          cases g with
          | zero => simp at hg
          | succ g =>
              show (x :: t).take len :: chunksAux f ((x :: t).drop len) len
                  = (x :: t).take len :: chunksAux g ((x :: t).drop len) len
              congr 1
              apply ih
              · simp only [List.length_drop, List.length_cons]
                simp only [List.length_cons] at hf
                omega
              · simp only [List.length_drop, List.length_cons]
                simp only [List.length_cons] at hg
                omega

theorem chunks_nil (len : Nat) : chunks ([] : List α) len = [] := by
  cases len <;> rfl

theorem chunks_cons {len : Nat} (hlen : 0 < len) (xs : List α) (hxs : xs ≠ []) :
    chunks xs len = xs.take len :: chunks (xs.drop len) len := by
  cases xs with
  | nil => exact absurd rfl hxs
  | cons x t =>
      simp only [chunks, if_neg (Nat.pos_iff_ne_zero.mp hlen)]
      show (x :: t).take len :: chunksAux t.length ((x :: t).drop len) len
          = (x :: t).take len :: chunksAux ((x :: t).drop len).length ((x :: t).drop len) len
      congr 1
      apply chunksAux_fuel_eq hlen
      · simp only [List.length_drop, List.length_cons]
        omega
      · exact le_refl _

theorem chunks_length_aux {len : Nat} (hlen : 0 < len) :
    ∀ (n : Nat) (xs : List α), xs.length ≤ n →
      (chunks xs len).length = (xs.length + len - 1) / len := by
  intro n
  induction n with
  | zero =>
      intro xs h
      have hx : xs = [] := List.length_eq_zero.mp (Nat.le_zero.mp h)
      subst hx
      rw [chunks_nil]
      simp only [List.length_nil, Nat.zero_add]
      exact (Nat.div_eq_of_lt (by omega)).symm
  | succ n ih =>
      intro xs h
      by_cases hxs : xs = []
      · subst hxs
        rw [chunks_nil]
        simp only [List.length_nil, Nat.zero_add]
        exact (Nat.div_eq_of_lt (by omega)).symm
      · have hL : 1 ≤ xs.length := List.length_pos.mpr hxs
        rw [chunks_cons hlen xs hxs]
        simp only [List.length_cons]
        rw [ih (xs.drop len) (by simp only [List.length_drop]; omega)]
        simp only [List.length_drop]
        rcases le_or_lt len xs.length with hc | hc
        · have h1 : xs.length - len + len - 1 = xs.length - 1 := by omega
          have h2 : xs.length + len - 1 = xs.length - 1 + len := by omega
          rw [h1, h2, Nat.add_div_right _ hlen]
        · have h1 : xs.length - len = 0 := by omega
          have h2 : xs.length + len - 1 = xs.length - 1 + len := by omega
          rw [h1, h2, Nat.add_div_right _ hlen,
            Nat.div_eq_of_lt (show 0 + len - 1 < len by omega),
            Nat.div_eq_of_lt (show xs.length - 1 < len by omega)]

theorem chunks_length {len : Nat} (hlen : 0 < len) (xs : List α) :
    (chunks xs len).length = (xs.length + len - 1) / len :=
  chunks_length_aux hlen xs.length xs (le_refl _)

theorem chunks_getD_aux {len : Nat} (hlen : 0 < len) :
    ∀ (n : Nat) (xs : List α) (i : Nat), xs.length ≤ n →
      (chunks xs len).getD i [] = (xs.drop (i * len)).take len := by
  intro n
  induction n with
  | zero =>
      intro xs i h
      have hx : xs = [] := List.length_eq_zero.mp (Nat.le_zero.mp h)
      subst hx
      simp [chunks_nil]
  | succ n ih =>
      intro xs i h
      by_cases hxs : xs = []
      · subst hxs
        simp [chunks_nil]
      · rw [chunks_cons hlen xs hxs]
        cases i with
        | zero => simp
        | succ i =>
            simp only [List.getD_cons_succ]
            rw [ih (xs.drop len) i (by simp only [List.length_drop]; omega),
              List.drop_drop, Nat.succ_mul]
            congr 2
            omega

theorem chunks_getD {len : Nat} (hlen : 0 < len) (xs : List α) (i : Nat) :
    (chunks xs len).getD i [] = (xs.drop (i * len)).take len :=
  chunks_getD_aux hlen xs.length xs i (le_refl _)

theorem padLastChunk_cons (a : List (List α)) (split : List (List (List α)))
    (len : Nat) (z : α) (h : split ≠ []) :
    padLastChunk (a :: split) len z = (padLastChunk split len z).map (a :: ·) := by
  cases split with
  | nil => exact absurd rfl h
  | cons b t =>
      obtain ⟨l, hl⟩ := Option.isSome_iff_exists.mp
        (List.getLast?_isSome.mpr (List.cons_ne_nil b t))
      simp [padLastChunk, List.getLast?_cons_cons, hl]

theorem padLastChunk_chunks_aux {len : Nat} (hlen : 0 < len) (z : α) :
    ∀ (n : Nat) (xs : List (List α)), xs.length ≤ n → xs ≠ [] →
      ∃ ys, padLastChunk (chunks xs len) len z = some ys ∧
        ys.length = (chunks xs len).length ∧
        (∀ c ∈ ys, c.length = len) ∧
        xs.length ≤ ys.length * len := by
  intro n
  induction n with
  | zero =>
      intro xs h hxs
      exact absurd (List.length_eq_zero.mp (Nat.le_zero.mp h)) hxs
  | succ n ih =>
      intro xs h hxs
      rcases le_or_lt xs.length len with hle | hlt
      · have htake : xs.take len = xs := List.take_of_length_le hle
        have hdrop : xs.drop len = [] := List.drop_of_length_le hle
        rw [chunks_cons hlen xs hxs, htake, hdrop, chunks_nil]
        have hpad : padLastChunk [xs] len z
            = some [xs ++ List.replicate (len - xs.length)
                (List.replicate (xs.headD []).length z)] := by
          simp [padLastChunk]
        refine ⟨_, hpad, by simp, ?_, ?_⟩
        · intro c hc
          simp only [List.mem_singleton] at hc
          subst hc
          simp only [List.length_append, List.length_replicate]
          omega
        · simp only [List.length_singleton, one_mul]
          exact hle
      · have hxs2 : xs.drop len ≠ [] := by
          intro hcon
          have hlc := congrArg List.length hcon
          simp only [List.length_drop, List.length_nil] at hlc
          omega
        obtain ⟨ys, hys, hlen2, hall, hbound⟩ :=
          ih (xs.drop len) (by simp only [List.length_drop]; omega) hxs2
        have hne : chunks (xs.drop len) len ≠ [] := by
          intro hcon
          rw [hcon] at hys
          simp [padLastChunk] at hys
        rw [chunks_cons hlen xs hxs, padLastChunk_cons _ _ _ _ hne, hys]
        refine ⟨xs.take len :: ys, rfl, ?_, ?_, ?_⟩
        · simp [hlen2]
        · intro c hc
          rcases List.mem_cons.mp hc with hc | hc
          · subst hc
            simp only [List.length_take]
            omega
          · exact hall c hc
        · simp only [List.length_cons, Nat.succ_mul]
          simp only [List.length_drop] at hbound
          omega

theorem padLastChunk_chunks {len : Nat} (hlen : 0 < len) (z : α)
    (xs : List (List α)) (hxs : xs ≠ []) :
    ∃ ys, padLastChunk (chunks xs len) len z = some ys ∧
      ys.length = (chunks xs len).length ∧
      (∀ c ∈ ys, c.length = len) ∧
      xs.length ≤ ys.length * len :=
  padLastChunk_chunks_aux hlen z xs.length xs (le_refl _) hxs

/-! ## Helper lemmas about the ground-truth generators -/

theorem midi_gt_foldl_frame (dt : ℚ) (n : Nat) (chroma : Bool) (r c : Nat) :
    ∀ (notes : List Note) (m : (Nat → Nat → ℕ) × (Nat → Nat → ℕ)),
      (notes.foldl (midi_gt_step dt n chroma) m).1 r c
        = if ∃ note ∈ notes,
              roundQ (note.onset / dt) ≤ (r : ℤ)
              ∧ (r : ℤ) < roundQ ((note.onset + note.duration) / dt)
              ∧ r < n ∧ (c : ℤ) = noteLabel chroma note.pitch
          then 1 else m.1 r c := by
  intro notes
  induction notes with
  | nil => intro m; simp
  | cons note rest ih =>
      intro m
      rw [List.foldl_cons, ih]
      by_cases hE : ∃ x ∈ rest,
          roundQ (x.onset / dt) ≤ (r : ℤ)
          ∧ (r : ℤ) < roundQ ((x.onset + x.duration) / dt)
          ∧ r < n ∧ (c : ℤ) = noteLabel chroma x.pitch
      · simp [hE, List.mem_cons, exists_eq_or_imp]
      · by_cases hP : roundQ (note.onset / dt) ≤ (r : ℤ)
            ∧ (r : ℤ) < roundQ ((note.onset + note.duration) / dt)
            ∧ r < n ∧ (c : ℤ) = noteLabel chroma note.pitch
        · simp [hE, hP, List.mem_cons, exists_eq_or_imp, midi_gt_step, sliceSetCol]
        · simp [hE, hP, List.mem_cons, exists_eq_or_imp, midi_gt_step, sliceSetCol]

theorem midi_gt_foldl_onset (dt : ℚ) (n : Nat) (chroma : Bool) (r c : Nat) :
    ∀ (notes : List Note) (m : (Nat → Nat → ℕ) × (Nat → Nat → ℕ)),
      (notes.foldl (midi_gt_step dt n chroma) m).2 r c
        = if ∃ note ∈ notes,
              roundQ (note.onset / dt) + 2 ≤ roundQ ((note.onset + note.duration) / dt)
              ∧ roundQ (note.onset / dt) ≤ (r : ℤ)
              ∧ (r : ℤ) < roundQ (note.onset / dt) + 2
              ∧ r < n ∧ (c : ℤ) = noteLabel chroma note.pitch
          then 1 else m.2 r c := by
  intro notes
  induction notes with
  | nil => intro m; simp
  | cons note rest ih =>
      intro m
      rw [List.foldl_cons, ih]
      by_cases hE : ∃ x ∈ rest,
          roundQ (x.onset / dt) + 2 ≤ roundQ ((x.onset + x.duration) / dt)
          ∧ roundQ (x.onset / dt) ≤ (r : ℤ)
          ∧ (r : ℤ) < roundQ (x.onset / dt) + 2
          ∧ r < n ∧ (c : ℤ) = noteLabel chroma x.pitch
      · simp [hE, List.mem_cons, exists_eq_or_imp]
      · by_cases hs : roundQ (note.onset / dt) + 2
            ≤ roundQ ((note.onset + note.duration) / dt)
        · by_cases hP : roundQ (note.onset / dt) ≤ (r : ℤ)
              ∧ (r : ℤ) < roundQ (note.onset / dt) + 2
              ∧ r < n ∧ (c : ℤ) = noteLabel chroma note.pitch
          · simp [hE, hs, hP, List.mem_cons, exists_eq_or_imp, midi_gt_step, sliceSetCol]
          · simp [hE, hs, hP, List.mem_cons, exists_eq_or_imp, midi_gt_step, sliceSetCol]
        · simp [hE, hs, List.mem_cons, exists_eq_or_imp, midi_gt_step, sliceSetCol]

theorem list_mapM_isSome {α β : Type _} (f : α → Option β) :
    ∀ (l : List α), (∀ a ∈ l, (f a).isSome) → (l.mapM f).isSome := by
  intro l
  induction l with
  | nil => intro _; rfl
  | cons a t ih =>
      intro h
      obtain ⟨b, hb⟩ := Option.isSome_iff_exists.mp (h a (List.mem_cons_self a t))
      obtain ⟨bs, hbs⟩ := Option.isSome_iff_exists.mp
        (ih fun x hx => h x (List.mem_cons_of_mem a hx))
      rw [List.mapM_cons, hb]
      have hbs2 : List.mapM.loop f t [] = some bs := hbs
      simp [hbs2]

theorem midi_triple_step_some (dt : ℚ) (n k : Nat) (gt : TripleGT) (note : Note)
    (hdt : 0 < dt) (h1 : 0 ≤ note.onset) (h2 : 0 ≤ note.duration)
    (h3 : 21 ≤ note.pitch) (h4 : note.pitch ≤ 108)
    (h5 : roundQ ((note.onset + note.duration) / dt) < (n : ℤ)) :
    ∃ plus, midi_triple_step dt n k gt note
      = some ⟨sliceSetCol gt.frame_gt (roundQ (note.onset / dt))
            (roundQ ((note.onset + note.duration) / dt)) (note.pitch - 21) n,
          fun (r' c' : ℕ) => if (r' : ℤ) = roundQ (note.onset / dt)
              ∧ (c' : ℤ) = note.pitch - 21 then 1 else gt.onset_gt r' c',
          fun (r' c' : ℕ) => if (r' : ℤ) = roundQ ((note.onset + note.duration) / dt)
              ∧ (c' : ℤ) = note.pitch - 21 then 1 else gt.offset_gt r' c',
          plus⟩ := by
  have hfs0 : 0 ≤ roundQ (note.onset / dt) := roundQ_nonneg (div_nonneg h1 hdt.le)
  have hmono : roundQ (note.onset / dt) ≤ roundQ ((note.onset + note.duration) / dt) :=
    roundQ_mono ((div_le_div_iff_of_pos_right hdt).mpr (by linarith))
  have honset : singleSet gt.onset_gt (roundQ (note.onset / dt)) (note.pitch - 21) n 88
      = some fun (r' c' : ℕ) => if (r' : ℤ) = roundQ (note.onset / dt)
          ∧ (c' : ℤ) = note.pitch - 21 then 1 else gt.onset_gt r' c' := by
    simp only [singleSet]
    rw [if_pos]
    exact ⟨hfs0, lt_of_le_of_lt hmono h5, by omega, by omega⟩
  have hoffset : singleSet gt.offset_gt (roundQ ((note.onset + note.duration) / dt))
        (note.pitch - 21) n 88
      = some fun (r' c' : ℕ) => if (r' : ℤ) = roundQ ((note.onset + note.duration) / dt)
          ∧ (c' : ℤ) = note.pitch - 21 then 1 else gt.offset_gt r' c' := by
    simp only [singleSet]
    rw [if_pos]
    exact ⟨le_trans hfs0 hmono, h5, by omega, by omega⟩
  have hplus : ((List.range k).mapM fun (i : ℕ) =>
      if roundQ (note.onset / dt) + (i : ℤ) + 1
          < roundQ ((note.onset + note.duration) / dt) then
        singleSet (gt.onset_plus.getD i fun _ _ => 0)
          (roundQ (note.onset / dt) + (i : ℤ) + 1) (note.pitch - 21) n 88
      else
        some (gt.onset_plus.getD i fun _ _ => 0)).isSome := by
    apply list_mapM_isSome
    intro i _
    split_ifs with hif
    · simp only [singleSet]
      rw [if_pos]
      · rfl
      · exact ⟨by omega, lt_trans hif h5, by omega, by omega⟩
    · rfl
  obtain ⟨plus, hplus2⟩ := Option.isSome_iff_exists.mp hplus
  refine ⟨plus, ?_⟩
  simp only [midi_triple_step, honset, hplus2, hoffset, Option.bind_eq_bind,
    Option.some_bind]
  rfl

theorem midi_triple_foldlM_isSome (dt : ℚ) (n k : Nat) (hdt : 0 < dt) :
    ∀ (notes : List Note) (gt : TripleGT),
      (∀ note ∈ notes, 0 ≤ note.onset ∧ 0 ≤ note.duration
        ∧ 21 ≤ note.pitch ∧ note.pitch ≤ 108
        ∧ roundQ ((note.onset + note.duration) / dt) < (n : ℤ)) →
      (notes.foldlM (midi_triple_step dt n k) gt).isSome := by
  intro notes
  induction notes with
  | nil => intro gt _; rfl
  | cons note rest ih =>
      intro gt h
      have hc := h note (List.mem_cons_self note rest)
      obtain ⟨plus, hstep⟩ := midi_triple_step_some dt n k gt note hdt
        hc.1 hc.2.1 hc.2.2.1 hc.2.2.2.1 hc.2.2.2.2
      rw [List.foldlM_cons, hstep]
      simp only [Option.bind_eq_bind, Option.some_bind]
      exact ih _ fun x hx => h x (List.mem_cons_of_mem note hx)

/-! ## Theorems -/

/-- Claim C1 (code bug): `write_file_to_tfrecords` is claimed to write
`F - 2C` records (18 for a 28-frame spectrogram with `context_frames = 5`),
but the un-unpacked `(frame_gt, onset_gt)` tuple is indexed as
`ground_truth[frame, :]` in the first loop iteration, raising `TypeError`,
so the call fails instead of writing any record. -/
theorem write_file_to_tfrecords_fails :
    write_file_to_tfrecords (constRows 28 5 (0 : ℝ)) [] (1/100) 5 = none ∧
      (constRows 28 5 (0 : ℝ)).length = 28 :=
  ⟨rfl, rfl⟩

/-- Claim C3: with `use_rnn = false`, `conv_net_init` computes only the plain
ResNet logits and then unconditionally dereferences the sub-network
probability tensors defined only in the recurrent branch, so it fails for
every mode and every input and never returns an `EstimatorSpec`. -/
theorem conv_net_init_non_recurrent_fails (mode : Mode)
    (label_frames label_onset rnn_frame_probs rnn_onset_probs plain_logits : List ℝ)
    (fc_frame : List ℝ → List ℝ) (clip_norm : ℝ) :
    conv_net_init false mode label_frames label_onset rnn_frame_probs
      rnn_onset_probs plain_logits fc_frame clip_norm = none :=
  rfl

/-- Claim C9: with `use_rnn = false`, `get_note_activation` computes only
`note_activation` via the sliding-window path and then returns the
never-assigned `onset_activation`, so every non-recurrent call fails and the
function can return normally only when `use_rnn` is true. -/
theorem get_note_activation_non_recurrent_fails (notes : List Note) (dt : ℚ)
    (n_onset_plus : Nat) (spec : List (List ℝ)) (context_frames : Nat)
    (pred : List (List ℝ) → List (List ℝ) × List (List ℝ)) :
    get_note_activation false notes dt n_onset_plus spec context_frames pred
      = none := by
  unfold get_note_activation
  cases midi_to_triple_groundtruth notes dt spec.length n_onset_plus with
  | none => rfl
  | some gts =>
      cases spectrogram_to_note_activation spec context_frames pred with
      | none => rfl
      | some a => rfl

/-- Claim C7 (counterexample): on the single-row label matrix `[[1, 0]]` the
code returns weight `1.0` (not the claimed default `0.25`) at the unlabelled
position of a row that contains a positive label. -/
theorem weights_from_labels_claim_false :
    weights_from_labels [[1, 0]] = [[2, 1]] ∧
      claimed_weights [[1, 0]] = [[2, 1/4]] ∧
      weights_from_labels [[1, 0]] ≠ claimed_weights [[1, 0]] := by
  refine ⟨?_, ?_, ?_⟩ <;>
    norm_num [weights_from_labels, claimed_weights, List.replicate,
      List.zipWith_cons_cons]

/-- Claim C7 (amended): `weights_from_labels` assigns `2.0` where the label
is `1`, `1.0` at the other positions of rows containing at least one `1`
label, and `0.25` at the positions of rows containing no `1` label. -/
theorem weights_from_labels_eq (labels : List (List ℚ)) :
    weights_from_labels labels = labels.map fun row => row.map fun x =>
      if x = 1 then 2 else if ∃ y ∈ row, y = 1 then 1 else 1/4 := by
  unfold weights_from_labels
  simp only [List.zipWith_map_right, List.zipWith_same, List.map_map]
  refine List.map_congr_left fun row _ => ?_
  by_cases hrow : ∃ y ∈ row, y = 1
  · simp only [hrow, if_true, Function.comp, List.map_map, List.zipWith_map_right,
      List.zipWith_same]
    refine List.map_congr_left fun x _ => ?_
    by_cases hx : x = 1 <;> simp [hx]
  · simp only [hrow, if_false, Function.comp, List.map_map, List.zipWith_map_right,
      List.zipWith_same]
    refine List.map_congr_left fun x _ => ?_
    by_cases hx : x = 1 <;> simp [hx]

/-- Claim C4 (counterexample): on a spectrogram of 4 frames with chunk length
`context_frames = 2` (so that the final chunk needs no padding), the frame
activations returned by `spectrogram_to_non_overlap_note_activation` have
only 2 rows, not the claimed `spec.shape[0] = 4`. -/
theorem spectrogram_to_non_overlap_claim_false :
    (spectrogram_to_non_overlap_note_activation (constRows 4 88 (1:ℝ)) 2
        fun xs => (xs, xs)).map (fun p => (p.1.length, p.2.length))
      = some (2, 4) ∧
      (constRows 4 88 (1:ℝ)).length = 4 :=
  ⟨rfl, rfl⟩

/-- Claim C4 (amended): for every non-empty spectrogram, positive chunk
length and predictor returning one output row per input row,
`spectrogram_to_non_overlap_note_activation` returns frame activations (from
offset 3 of the accumulation buffer) with
`min F (ceil(F/C)*C - 2)` rows — exactly `F` only when the final chunk is
padded by at least 2 rows — and onset activations (from offset 1) with
exactly `F` rows. -/
theorem spectrogram_to_non_overlap_rows (spec : List (List ℝ)) (C : Nat)
    (pred : List (List ℝ) → List (List ℝ) × List (List ℝ))
    (hC : 0 < C) (hs : spec ≠ [])
    (hp : ∀ xs, (pred xs).1.length = xs.length ∧ (pred xs).2.length = xs.length) :
    (spectrogram_to_non_overlap_note_activation spec C pred).map
        (fun p => (p.1.length, p.2.length))
      = some (min spec.length ((spec.length + C - 1) / C * C - 2), spec.length) := by
  obtain ⟨ys, hys, hl, hall, hbound⟩ := padLastChunk_chunks hC (0 : ℝ) spec hs
  have hysl : ys.length = (spec.length + C - 1) / C := by
    rw [hl, chunks_length hC]
  have hrep : ∀ (zs : List (List (List ℝ))), (zs.map fun _ => C).sum = zs.length * C := by
    intro zs
    induction zs with
    | nil => simp
    | cons a t iht =>
        simp only [List.map_cons, List.sum_cons, List.length_cons, Nat.succ_mul, iht]
        omega
  have hflat1 : (ys.flatMap fun c => (pred c).1).length = ys.length * C := by
    rw [List.length_flatMap]
    have hmap1 : ys.map (List.length ∘ fun c => (pred c).1) = ys.map fun _ => C :=
      List.map_congr_left fun c hc => by
        simp only [Function.comp_apply]
        rw [(hp c).1, hall c hc]
    rw [hmap1, hrep]
  have hflat2 : (ys.flatMap fun c => (pred c).2).length = ys.length * C := by
    rw [List.length_flatMap]
    have hmap2 : ys.map (List.length ∘ fun c => (pred c).2) = ys.map fun _ => C :=
      List.map_congr_left fun c hc => by
        simp only [Function.comp_apply]
        rw [(hp c).2, hall c hc]
    rw [hmap2, hrep]
  have hbody : spectrogram_to_non_overlap_note_activation spec C pred
      = some (pySlice (constRows 1 88 (0:ℝ) ++ ys.flatMap fun c => (pred c).1)
            3 (spec.length + 3),
          pySlice (constRows 1 88 (0:ℝ) ++ ys.flatMap fun c => (pred c).2)
            1 (spec.length + 1)) := by
    unfold spectrogram_to_non_overlap_note_activation util_chunks
    rw [hys]
    rfl
  rw [hbody]
  simp only [Option.map_some', Option.some.injEq, Prod.mk.injEq]
  rw [hysl] at hbound
  constructor
  · rw [pySlice_length, List.length_append, hflat1, hysl]
    simp only [constRows, List.length_replicate]
    omega
  · rw [pySlice_length, List.length_append, hflat2, hysl]
    simp only [constRows, List.length_replicate]
    omega

/-- Claim C6: `chunks` yields the consecutive slices `[0,C)`, `[C,2C)`, …
(with an unpadded, possibly shorter final slice), and
`write_file_to_non_overlap_tfrecords` writes exactly `ceil(F/C)` records —
each carrying a spec chunk zero-padded to exactly `C` rows — and returns that
count. -/
theorem write_file_to_non_overlap_correct (spectrogram : List (List ℝ))
    (ground_truth onset_gt : List (List ℕ)) (C : Nat) (hC : 0 < C)
    (hs : spectrogram ≠ [])
    (hg : ground_truth.length = spectrogram.length)
    (ho : onset_gt.length = spectrogram.length) :
    (∀ i, (chunks spectrogram C).getD i [] = (spectrogram.drop (i * C)).take C) ∧
      (write_file_to_non_overlap_tfrecords spectrogram ground_truth onset_gt C).map
          (fun p => (p.2, p.1.map fun e => e.spec.length))
        = some ((spectrogram.length + C - 1) / C,
            List.replicate ((spectrogram.length + C - 1) / C) C) := by
  have hsl : 0 < spectrogram.length := List.length_pos.mpr hs
  have hgne : ground_truth ≠ [] := by
    intro hcon
    rw [hcon] at hg
    simp only [List.length_nil] at hg
    omega
  have hone : onset_gt ≠ [] := by
    intro hcon
    rw [hcon] at ho
    simp only [List.length_nil] at ho
    omega
  obtain ⟨ys, hys, hl, hall, _⟩ := padLastChunk_chunks hC (0 : ℝ) spectrogram hs
  obtain ⟨ysg, hysg, hlg, _, _⟩ := padLastChunk_chunks hC (0 : ℕ) ground_truth hgne
  obtain ⟨yso, hyso, hlo, _, _⟩ := padLastChunk_chunks hC (0 : ℕ) onset_gt hone
  have hysl : ys.length = (spectrogram.length + C - 1) / C := by
    rw [hl, chunks_length hC]
  have hysgl : ysg.length = (spectrogram.length + C - 1) / C := by
    rw [hlg, chunks_length hC, hg]
  have hysol : yso.length = (spectrogram.length + C - 1) / C := by
    rw [hlo, chunks_length hC, ho]
  refine ⟨fun i => chunks_getD hC spectrogram i, ?_⟩
  have hbody : write_file_to_non_overlap_tfrecords spectrogram ground_truth onset_gt C
      = some ((ys.zip (ysg.zip yso)).map fun t => NOExample.mk t.1 t.2.1 t.2.2,
          ((ys.zip (ysg.zip yso)).map fun t => NOExample.mk t.1 t.2.1 t.2.2).length) := by
    unfold write_file_to_non_overlap_tfrecords
    rw [hys, hysg, hyso]
    rfl
  have hzlen : (ys.zip (ysg.zip yso)).length = (spectrogram.length + C - 1) / C := by
    simp [List.length_zip, hysl, hysgl, hysol]
  have hmap : ((ys.zip (ysg.zip yso)).map fun t => NOExample.mk t.1 t.2.1 t.2.2).map
        (fun e => e.spec.length)
      = List.replicate ((spectrogram.length + C - 1) / C) C := by
    rw [List.map_map]
    rw [List.map_congr_left fun t _ =>
      (rfl : ((fun e => e.spec.length) ∘ fun t => NOExample.mk t.1 t.2.1 t.2.2) t
        = t.1.length)]
    have hfst : ((ys.zip (ysg.zip yso)).map fun t => t.1.length)
        = ys.map List.length := by
      rw [show (fun t : List (List ℝ) × (List (List ℕ) × List (List ℕ)) => t.1.length)
          = (List.length ∘ Prod.fst) from rfl]
      rw [← List.map_map, List.map_fst_zip]
      rw [List.length_zip, hysl, hysgl, hysol]
      omega
    rw [hfst]
    refine List.eq_replicate_iff.mpr ⟨by simp [hysl], ?_⟩
    intro b hb
    obtain ⟨c, hc, hcb⟩ := List.mem_map.mp hb
    rw [← hcb]
    exact hall c hc
  rw [hbody]
  simp only [Option.map_some', Option.some.injEq, Prod.mk.injEq]
  exact ⟨by rw [List.length_map, hzlen], hmap⟩

/-- Witness for the amended claim C4 at a concrete input: 3 frames, chunk
length 2, identity predictor — `ceil(3/2)*2 - 2 = 2` frame rows and 3 onset
rows. -/
theorem spectrogram_to_non_overlap_rows_witness :
    (spectrogram_to_non_overlap_note_activation (constRows 3 88 (1:ℝ)) 2
        fun xs => (xs, xs)).map (fun p => (p.1.length, p.2.length))
      = some (2, 3) :=
  (spectrogram_to_non_overlap_rows (constRows 3 88 (1:ℝ)) 2 (fun xs => (xs, xs))
      (by norm_num) (by simp [constRows]) (fun xs => ⟨rfl, rfl⟩)).trans
    (by norm_num [constRows, List.length_replicate])

/-- Witness for claim C6 at the concrete input of the claim: 22 frames with
chunk length 10 give 3 records, each spec chunk padded to 10 rows (the last
from 2 real rows), and the third chunk is `spectrogram[20:30]`. -/
theorem write_file_to_non_overlap_witness :
    (write_file_to_non_overlap_tfrecords (constRows 22 1 (0:ℝ))
          (constRows 22 2 0) (constRows 22 2 0) 10).map
        (fun p => (p.2, p.1.map fun e => e.spec.length))
      = some (3, [10, 10, 10]) ∧
      (chunks (constRows 22 1 (0:ℝ)) 10).getD 2 []
        = ((constRows 22 1 (0:ℝ)).drop 20).take 10 := by
  have h := write_file_to_non_overlap_correct (constRows 22 1 (0:ℝ))
    (constRows 22 2 0) (constRows 22 2 0) 10 (by norm_num)
    (by simp [constRows]) rfl rfl
  refine ⟨h.2.trans ?_, h.1 2⟩
  norm_num [constRows, List.length_replicate, List.replicate]

/-- Claim C2 (counterexample): with frame/onset labels `[1]`, sub-network
probabilities `[1/2]`, a fusion layer returning `[1/2]` and
`clip_norm = 1/2`, the registered total loss differs from the claimed one —
the third `log_loss` call at `ps_model.py` line 273 passes
`(combined_probs, label_frames)`, i.e. the fused probabilities in the labels
slot, and the log-loss formula is not symmetric in its two arguments. -/
theorem conv_net_loss_claim_false :
    Option.bind
        (conv_net_init true Mode.eval [1] [1] [(1:ℝ)/2] [(1:ℝ)/2] []
          (fun _ => [(1:ℝ)/2]) ((1:ℝ)/2)) EstimatorSpec.loss
      ≠ some (claimed_total_loss [1] [1] [(1:ℝ)/2] [(1:ℝ)/2] [(1:ℝ)/2] ((1:ℝ)/2)) := by
  have hm : Real.log (3/2) + Real.log (1/2) = Real.log (3/4) := by
    rw [← Real.log_mul (by norm_num) (by norm_num)]
    norm_num
  have hneg : Real.log ((3:ℝ)/4) < 0 := Real.log_neg (by norm_num) (by norm_num)
  have hL : Option.bind
      (conv_net_init true Mode.eval [1] [1] [(1:ℝ)/2] [(1:ℝ)/2] []
        (fun _ => [(1:ℝ)/2]) ((1:ℝ)/2)) EstimatorSpec.loss
      = some (reduceMean (log_loss [1] [(1:ℝ)/2] ((1:ℝ)/2))
          + reduceMean (log_loss [1] [(1:ℝ)/2] ((1:ℝ)/2))
          + reduceMean (log_loss [(1:ℝ)/2] [1] ((1:ℝ)/2))) := rfl
  intro hcon
  rw [hL] at hcon
  simp only [claimed_total_loss, Option.some.injEq, log_loss, reduceMean,
    List.zipWith_cons_cons, List.zipWith_nil_left, List.sum_cons, List.sum_nil,
    List.length_cons, List.length_nil] at hcon
  norm_num [Real.log_one] at hcon
  linarith

/-- Claim C2 (amended): in the recurrent non-predict path the total loss is
the sum of the means of the three elementwise terms
`-y*log(p+ε) - (1-y)*log(1-p+ε)` with `ε = clip_norm`, where the `(y, p)`
pairs are (frame labels, frames sub-network probabilities), (onset labels,
onset sub-network probabilities) and — arguments swapped relative to the
claim — (fused combined probabilities, frame labels). -/
theorem conv_net_init_rnn_loss (mode : Mode)
    (label_frames label_onset p1 p2 plain : List ℝ)
    (fc_frame : List ℝ → List ℝ) (clip_norm : ℝ) (h : mode ≠ Mode.predict) :
    Option.bind
        (conv_net_init true mode label_frames label_onset p1 p2 plain
          fc_frame clip_norm) EstimatorSpec.loss
      = some (
        (List.zipWith (fun y p => -(y * Real.log (p + clip_norm))
            - (1 - y) * Real.log (1 - p + clip_norm)) label_frames p1).sum
          / (List.zipWith (fun y p => -(y * Real.log (p + clip_norm))
            - (1 - y) * Real.log (1 - p + clip_norm)) label_frames p1).length
        + (List.zipWith (fun y p => -(y * Real.log (p + clip_norm))
            - (1 - y) * Real.log (1 - p + clip_norm)) label_onset p2).sum
          / (List.zipWith (fun y p => -(y * Real.log (p + clip_norm))
            - (1 - y) * Real.log (1 - p + clip_norm)) label_onset p2).length
        + (List.zipWith (fun y p => -(y * Real.log (p + clip_norm))
            - (1 - y) * Real.log (1 - p + clip_norm))
              (fc_frame (p1 ++ p2)) label_frames).sum
          / (List.zipWith (fun y p => -(y * Real.log (p + clip_norm))
            - (1 - y) * Real.log (1 - p + clip_norm))
              (fc_frame (p1 ++ p2)) label_frames).length) := by
  have hbody : conv_net_init true mode label_frames label_onset p1 p2 plain
        fc_frame clip_norm
      = if mode = Mode.predict
        then some ⟨(fc_frame (p1 ++ p2)).map fun p => if (1:ℝ)/2 ≤ p then (1:ℝ) else 0,
          fc_frame (p1 ++ p2), p2, none⟩
        else some ⟨(fc_frame (p1 ++ p2)).map fun p => if (1:ℝ)/2 ≤ p then (1:ℝ) else 0,
          fc_frame (p1 ++ p2), p2,
          some (reduceMean (log_loss label_frames p1 clip_norm)
            + reduceMean (log_loss label_onset p2 clip_norm)
            + reduceMean (log_loss (fc_frame (p1 ++ p2)) label_frames clip_norm))⟩ := rfl
  rw [hbody, if_neg h]
  rfl

/-- Witness for the amended claim C2 at a concrete non-predict input (empty
batch, zero clip norm): the total loss evaluates to 0. -/
theorem conv_net_init_rnn_loss_witness :
    Option.bind (conv_net_init true Mode.eval [] [] [] [] [] (fun _ => []) 0)
        EstimatorSpec.loss
      = some 0 := by
  have h := conv_net_init_rnn_loss Mode.eval [] [] [] [] [] (fun _ => []) 0
    (fun hcon => Mode.noConfusion hcon)
  refine h.trans ?_
  norm_num [List.zipWith_nil_left, List.sum_nil, List.length_nil]

/-- Claim C5: every entry of the pair returned by `midi_to_groundtruth`
agrees with the claimed per-note description — `frame_gt[fs:fe, label] = 1`
per note, `onset_gt[fs:fs+2, label] = 1` exactly when `fs + 2 ≤ fe`, all
other entries 0. The hypotheses restrict to MIDI-valid inputs (positive
frame rate, non-negative onsets and durations), for which the numpy index
semantics match the embedding. -/
theorem midi_to_groundtruth_correct (notes : List Note) (dt : ℚ)
    (n_frames : Nat) (is_chroma : Bool) (_hdt : 0 < dt)
    (_hnotes : ∀ note ∈ notes, 0 ≤ note.onset ∧ 0 ≤ note.duration) (r c : Nat) :
    (midi_to_groundtruth notes dt n_frames is_chroma).1 r c
        = frame_gt_spec notes dt n_frames is_chroma r c
      ∧ (midi_to_groundtruth notes dt n_frames is_chroma).2 r c
        = onset_gt_spec notes dt n_frames is_chroma r c := by
  unfold midi_to_groundtruth frame_gt_spec onset_gt_spec
  exact ⟨midi_gt_foldl_frame dt n_frames is_chroma r c notes _,
    midi_gt_foldl_onset dt n_frames is_chroma r c notes _⟩

/-- Witness for claim C5 at the concrete input of the claim: a single note
with onset 0 s, duration 0.5 s, pitch 60 at 100 fps gives `frame_gt` 1 on
rows `[0, 50)` of column 39 (0 elsewhere) and `onset_gt` 1 on rows `[0, 2)`
of column 39. -/
theorem midi_to_groundtruth_correct_witness :
    (midi_to_groundtruth [⟨0, 60, 1/2⟩] (1/100) 50 false).1 0 39 = 1
      ∧ (midi_to_groundtruth [⟨0, 60, 1/2⟩] (1/100) 50 false).1 49 39 = 1
      ∧ (midi_to_groundtruth [⟨0, 60, 1/2⟩] (1/100) 50 false).1 10 40 = 0
      ∧ (midi_to_groundtruth [⟨0, 60, 1/2⟩] (1/100) 50 false).2 0 39 = 1
      ∧ (midi_to_groundtruth [⟨0, 60, 1/2⟩] (1/100) 50 false).2 1 39 = 1
      ∧ (midi_to_groundtruth [⟨0, 60, 1/2⟩] (1/100) 50 false).2 2 39 = 0 := by
  have hnotes : ∀ note ∈ [(⟨0, 60, 1/2⟩ : Note)], 0 ≤ note.onset ∧ 0 ≤ note.duration := by
    intro note hnote
    simp only [List.mem_singleton] at hnote
    subst hnote
    exact ⟨le_refl 0, by norm_num⟩
  have h := fun r c => midi_to_groundtruth_correct [⟨0, 60, 1/2⟩] (1/100) 50 false
    (by norm_num) hnotes r c
  refine ⟨(h 0 39).1.trans ?_, (h 49 39).1.trans ?_, (h 10 40).1.trans ?_,
    (h 0 39).2.trans ?_, (h 1 39).2.trans ?_, (h 2 39).2.trans ?_⟩ <;>
    simp [frame_gt_spec, onset_gt_spec, noteLabel] <;> norm_num [roundQ]

/-- Claim C8: `midi_to_triple_groundtruth` returns normally on every
MIDI-valid input in which each note's `frame_end` is strictly below
`n_frames`, and fails on an input containing a note with
`frame_end ≥ n_frames` because `offset_gt[frame_end, label]` is written
without a bounds check (the `frame_gt` slice write for the same note clips
silently). -/
theorem midi_to_triple_groundtruth_bounds (notes : List Note) (dt : ℚ)
    (n k : Nat) (hdt : 0 < dt)
    (hnotes : ∀ note ∈ notes, 0 ≤ note.onset ∧ 0 ≤ note.duration
      ∧ 21 ≤ note.pitch ∧ note.pitch ≤ 108
      ∧ roundQ ((note.onset + note.duration) / dt) < (n : ℤ)) :
    (midi_to_triple_groundtruth notes dt n k).isSome ∧
      midi_to_triple_groundtruth [⟨0, 60, 1⟩] 1 1 0 = none := by
  constructor
  · exact midi_triple_foldlM_isSome dt n k hdt notes _ hnotes
  · have h0 : roundQ ((0 : ℚ) / 1) = 0 := by
      rw [show ((0:ℚ) / 1) = ((0 : ℤ) : ℚ) by norm_num, roundQ_intCast]
    have h1 : roundQ (((0 : ℚ) + 1) / 1) = 1 := by
      rw [show (((0:ℚ) + 1) / 1) = ((1 : ℤ) : ℚ) by norm_num, roundQ_intCast]
    unfold midi_to_triple_groundtruth
    rw [List.foldlM_cons]
    have hstep : midi_triple_step 1 1 0
        ⟨fun _ _ => 0, fun _ _ => 0, fun _ _ => 0, List.replicate 0 fun _ _ => 0⟩
        ⟨0, 60, 1⟩ = none := by
      unfold midi_triple_step
      rw [h0, h1]
      simp only [singleSet]
      norm_num
    rw [hstep]
    rfl

/-- Witness for claim C8: the universal half applied to one valid note
(onset 0 s, duration 0.5 s, pitch 60, 100 fps, 51 frames), together with the
failing input (a 1-second note in a 1-frame grid, where
`frame_end = 1 ≥ n_frames = 1`). -/
theorem midi_to_triple_groundtruth_bounds_witness :
    (midi_to_triple_groundtruth [⟨0, 60, 1/2⟩] (1/100) 51 0).isSome ∧
      midi_to_triple_groundtruth [⟨0, 60, 1⟩] 1 1 0 = none := by
  have h50 : roundQ (((0 : ℚ) + 1/2) / (1/100)) = 50 := by
    rw [show (((0:ℚ) + 1/2) / (1/100)) = ((50 : ℤ) : ℚ) by norm_num, roundQ_intCast]
  apply midi_to_triple_groundtruth_bounds [⟨0, 60, 1/2⟩] (1/100) 51 0 (by norm_num)
  intro note hnote
  simp only [List.mem_singleton] at hnote
  subst hnote
  refine ⟨le_refl 0, by norm_num, by norm_num, by norm_num, ?_⟩
  rw [h50]
  norm_num

/-- Claim C10: on any single note spanning at least two frames (and in
bounds), `midi_to_triple_groundtruth` marks the onset only at row
`frame_start` (row `frame_start + 1` stays 0), while `midi_to_groundtruth`
marks rows `frame_start` and `frame_start + 1`; the two onset ground truths
disagree at row `frame_start + 1`. -/
theorem triple_vs_double_onset (note : Note) (dt : ℚ) (n k : Nat)
    (hdt : 0 < dt) (h1 : 0 ≤ note.onset) (h2 : 0 ≤ note.duration)
    (h3 : 21 ≤ note.pitch) (h4 : note.pitch ≤ 108)
    (hspan : roundQ (note.onset / dt) + 2 ≤ roundQ ((note.onset + note.duration) / dt))
    (hn : roundQ ((note.onset + note.duration) / dt) < (n : ℤ)) :
    (midi_to_triple_groundtruth [note] dt n k).map
        (fun t => (t.onset_gt (roundQ (note.onset / dt)).toNat (note.pitch - 21).toNat,
          t.onset_gt ((roundQ (note.onset / dt)).toNat + 1) (note.pitch - 21).toNat))
      = some (1, 0)
    ∧ (midi_to_groundtruth [note] dt n false).2
        (roundQ (note.onset / dt)).toNat (note.pitch - 21).toNat = 1
    ∧ (midi_to_groundtruth [note] dt n false).2
        ((roundQ (note.onset / dt)).toNat + 1) (note.pitch - 21).toNat = 1 := by
  have hfs0 : 0 ≤ roundQ (note.onset / dt) := roundQ_nonneg (div_nonneg h1 hdt.le)
  have e1 : ((roundQ (note.onset / dt)).toNat : ℤ) = roundQ (note.onset / dt) :=
    Int.toNat_of_nonneg hfs0
  have e2 : (((note.pitch - 21)).toNat : ℤ) = note.pitch - 21 :=
    Int.toNat_of_nonneg (by omega)
  refine ⟨?_, ?_, ?_⟩
  · obtain ⟨plus, hstep⟩ := midi_triple_step_some dt n k
      ⟨fun _ _ => 0, fun _ _ => 0, fun _ _ => 0, List.replicate k fun _ _ => 0⟩
      note hdt h1 h2 h3 h4 hn
    have hfold : midi_to_triple_groundtruth [note] dt n k
        = midi_triple_step dt n k
          ⟨fun _ _ => 0, fun _ _ => 0, fun _ _ => 0, List.replicate k fun _ _ => 0⟩
          note := by
      unfold midi_to_triple_groundtruth
      rw [List.foldlM_cons]
      cases midi_triple_step dt n k
          ⟨fun _ _ => 0, fun _ _ => 0, fun _ _ => 0, List.replicate k fun _ _ => 0⟩
          note <;> rfl
    rw [hfold, hstep]
    simp only [Option.map_some', Option.some.injEq, Prod.mk.injEq]
    constructor
    · rw [if_pos ⟨e1, e2⟩]
    · rw [if_neg]
      rintro ⟨ha, _⟩
      omega
  · unfold midi_to_groundtruth
    rw [midi_gt_foldl_onset, if_pos]
    refine ⟨note, List.mem_singleton_self note, hspan, ?_, ?_, ?_, ?_⟩
    · omega
    · omega
    · omega
    · simp only [noteLabel, if_neg (Bool.false_ne_true)]
      exact e2
  · unfold midi_to_groundtruth
    rw [midi_gt_foldl_onset, if_pos]
    refine ⟨note, List.mem_singleton_self note, hspan, ?_, ?_, ?_, ?_⟩
    · omega
    · omega
    · omega
    · simp only [noteLabel, if_neg (Bool.false_ne_true)]
      exact e2

/-- Witness for claim C10 at a concrete note (onset 0 s, duration 0.5 s,
pitch 60, 100 fps, 51 frames): the triple ground truth marks onset only at
row 0 of column 39, the double ground truth marks rows 0 and 1. -/
theorem triple_vs_double_onset_witness :
    (midi_to_triple_groundtruth [⟨0, 60, 1/2⟩] (1/100) 51 0).map
        (fun t => (t.onset_gt 0 39, t.onset_gt 1 39)) = some (1, 0)
    ∧ (midi_to_groundtruth [⟨0, 60, 1/2⟩] (1/100) 51 false).2 0 39 = 1
    ∧ (midi_to_groundtruth [⟨0, 60, 1/2⟩] (1/100) 51 false).2 1 39 = 1 := by
  have h0 : roundQ (((⟨0, 60, 1/2⟩ : Note)).onset / (1/100)) = 0 := by
    rw [show ((⟨0, 60, 1/2⟩ : Note)).onset / (1/100) = ((0 : ℤ) : ℚ) by norm_num,
      roundQ_intCast]
  have h50 : roundQ ((((⟨0, 60, 1/2⟩ : Note)).onset
      + ((⟨0, 60, 1/2⟩ : Note)).duration) / (1/100)) = 50 := by
    rw [show (((⟨0, 60, 1/2⟩ : Note)).onset + ((⟨0, 60, 1/2⟩ : Note)).duration) / (1/100)
        = ((50 : ℤ) : ℚ) by norm_num, roundQ_intCast]
  have h := triple_vs_double_onset ⟨0, 60, 1/2⟩ (1/100) 51 0 (by norm_num)
    (le_refl 0) (by norm_num) (by norm_num) (by norm_num)
    (by rw [h0, h50]; norm_num) (by rw [h50]; norm_num)
  rw [h0] at h
  simp only [show ((⟨0, 60, 1/2⟩ : Note).pitch - 21 : ℤ) = 39 from by norm_num,
    show ((39 : ℤ)).toNat = 39 from rfl, show ((0 : ℤ)).toNat = 0 from rfl,
    Nat.zero_add] at h
  exact h

end PS
